import Mathlib

/-!
Verification of the Amulet-Core chunk translation engine
(`amulet/world_interface/chunk/translators/__init__.py`) and the leveldb
chunk-version table (`.../leveldb/leveldb_chunk_versions.py`) against the
natural-language specification.

The Python code is shallowly embedded: numpy index grids become total
functions from coordinates to palette indices together with an explicit
coordinate-domain list, the mutable `BlockManager` becomes explicit state
passing over a plain list, and the `NotImplementedError` raised for entity
inputs becomes `Except Unit`.
-/

namespace AmuletCore

/-! ### Data model

`Block`, `BlockEntity`, `Entity` and `BlockManager` live in `amulet.api`,
which is outside the translated sources; they are modelled from the spec
(sections 2 and 3). -/

/-- Modelled from the spec: a single block layer — "an identifier
(namespace + base name) plus a property set" (spec §3). -/
structure BaseBlock where
  ns : String
  name : String
  props : List (String × String)
deriving DecidableEq, Repr

/-- Modelled from the spec: a block definition — a base layer "plus an
ordered list of zero or more extra layered block definitions stacked on a
base definition" (spec §3). -/
structure Block where
  base : BaseBlock
  extras : List BaseBlock
deriving DecidableEq, Repr

/-- Modelled from the spec: composing two block values, as used by the
`final_block += output_object` merge — "first layer determines primary
identity; subsequent layers are appended as the composite's extra layers"
(spec §4.1). -/
def Block.merge (b1 b2 : Block) : Block :=
  ⟨b1.base, b1.extras ++ (b2.base :: b2.extras)⟩

/-- The layer sequence `(input_object.base_block,) + input_object.extra_blocks`
iterated by the per-block translate wrappers. -/
def Block.layers (b : Block) : List Block :=
  ⟨b.base, []⟩ :: b.extras.map (fun e => ⟨e, []⟩)

/-- Modelled from the spec: a mobile object; "translation is unimplemented
by design" (spec §3), so only an opaque identifier is needed. -/
structure Entity where
  eid : String
deriving DecidableEq, Repr

/-- Modelled from the spec: "structured auxiliary data, owns an absolute
world position (x, y, z) and a name that is either already namespaced or
bare" (spec §3). -/
structure BlockEntity where
  ns : Option String
  base_name : String
  namespaced_name : String
  x : Int
  y : Int
  z : Int
deriving DecidableEq, Repr

/-- `BlockEntity.new_at_location`: a copy of the block entity repositioned
at the given absolute coordinates. -/
def BlockEntity.new_at_location (be : BlockEntity) (nx ny nz : Int) : BlockEntity :=
  { be with x := nx, y := ny, z := nz }

/-- A palette cell as the dynamically-typed Python code sees it: a block,
an entity, or Python `None` (the value a translate wrapper returns for an
input that is neither a `Block` nor an `Entity`). -/
inductive PObj where
  | blk (b : Block)
  | ent (e : Entity)
  | null
deriving DecidableEq, Repr

/-- The block identifier (namespace and base name) referenced by a palette
cell, when it holds a block. -/
def PObj.blockId : PObj → Option (String × String)
  | PObj.blk b => some (b.base.ns, b.base.name)
  | _ => none

/-- Grid coordinates (x, y, z) of a cell inside a chunk. -/
abbrev Coord := Int × Int × Int

/-- The decoded chunk: an index grid over a coordinate domain, the
chunk-grid position (cx, cz), the block-entity list, the entity list and
the biome array (flattened). -/
structure Chunk where
  cx : Int
  cz : Int
  gridCoords : List Coord
  blocks : Coord → Nat
  block_entities : List BlockEntity
  entities : List Entity
  biomes : List Int

/-- `numpy.where(chunk.blocks == i)`: the grid coordinates currently
holding palette index `i`, in grid enumeration order. -/
def Chunk.whereEq (ch : Chunk) (i : Nat) : List Coord :=
  ch.gridCoords.filter (fun c => ch.blocks c = i)

/-! ### The deduplicating palette (`BlockManager`) -/

/-- Index of the first occurrence of `b` in `l`, if any. -/
def firstIdx {α : Type} [DecidableEq α] (b : α) : List α → Option Nat
  | [] => none
  | x :: xs => if x = b then some 0 else (firstIdx b xs).map (· + 1)

/-- Modelled from the spec: `BlockManager.get_add_block`, the
"deduplicating append-only table mapping a block definition to a stable
integer slot" (spec §2): return the existing slot of `b`, or append `b`
and return its new slot. -/
def get_add_block (l : List PObj) (b : PObj) : List PObj × Nat :=
  match firstIdx b l with
  | some i => (l, i)
  | none => (l ++ [b], l.length)

/-! ### Version-range table (`leveldb_chunk_versions.py`) -/

/-- A 4-component game version (major, minor, patch, revision). -/
abbrev GV := Nat × Nat × Nat × Nat

/-- Python's lexicographic strict comparison on 4-tuples. -/
def gvLt (a b : GV) : Bool :=
  a.1 < b.1 ∨ (a.1 = b.1 ∧ (a.2.1 < b.2.1 ∨ (a.2.1 = b.2.1 ∧
    (a.2.2.1 < b.2.2.1 ∨ (a.2.2.1 = b.2.2.1 ∧ a.2.2.2 < b.2.2.2)))))

/-- Python's lexicographic non-strict comparison on 4-tuples. -/
def gvLe (a b : GV) : Bool := gvLt a b ∨ a = b

/-- Python's two-argument `min` on tuples: the second argument wins only
when it is strictly lexicographically smaller. -/
def gvMin (a b : GV) : GV := if gvLt b a then b else a

/-- The `chunk_version_to_max_version` table: for each chunk version, the
first and last game version that wrote it. -/
def chunk_version_to_max_version : List (Nat × (GV × GV)) :=
  [ (0, ((0, 9, 0, 0), (0, 9, 1, 9999))),
    (1, ((0, 9, 2, 0), (0, 9, 4, 9999))),
    (2, ((0, 9, 5, 0), (0, 16, 999, 9999))),
    (3, ((0, 17, 0, 0), (0, 17, 999, 9999))),
    (4, ((0, 18, 0, 0), (0, 18, 0, 0))),
    (5, ((0, 18, 0, 0), (1, 1, 999, 9999))),
    (6, ((1, 2, 0, 0), (1, 2, 0, 0))),
    (7, ((1, 2, 0, 0), (1, 2, 999, 9999))),
    (8, ((1, 3, 0, 0), (1, 7, 999, 9999))),
    (9, ((1, 8, 0, 0), (1, 8, 999, 9999))),
    (10, ((1, 9, 0, 0), (1, 9, 999, 9999))),
    (11, ((1, 10, 0, 0), (1, 10, 999, 9999))),
    (12, ((1, 11, 0, 0), (1, 11, 0, 9999))),
    (13, ((1, 11, 1, 0), (1, 11, 1, 9999))),
    (14, ((1, 11, 2, 0), (1, 11, 999, 999))),
    (15, ((1, 12, 0, 0), (999, 999, 999, 9999))) ]

/-- `chunk_to_game_version`: `min(table[chunk_version][1], max_game_version)`
under Python tuple ordering; `none` models the `KeyError` on a missing
chunk version. -/
def chunk_to_game_version (max_game_version : GV) (chunk_version : Nat) : Option GV :=
  (chunk_version_to_max_version.lookup chunk_version).map
    (fun p => gvMin p.2 max_game_version)

/-- `game_to_chunk_version`: first table entry whose inclusive range
contains the game version; `none` models falling off the loop. -/
def game_to_chunk_version (max_game_version : GV) : Option Nat :=
  chunk_version_to_max_version.findSome?
    (fun e => if gvLe e.2.1 max_game_version ∧ gvLe max_game_version e.2.2
              then some e.1 else none)

/-- The claim's own notion, for comparison: the componentwise minimum of
two 4-component game versions. -/
def componentwiseMinSpec (a b : GV) : GV :=
  (min a.1 b.1, min a.2.1 b.2.1, min a.2.2.1 b.2.2.1, min a.2.2.2 b.2.2.2)

/-! ### Biome recoder -/

/-- Sorted insertion, used to mirror the sorted distinct-value sequence
`numpy.unique` produces. -/
def insertSorted (v : Int) : List Int → List Int
  | [] => [v]
  | x :: xs => if v ≤ x then v :: x :: xs else x :: insertSorted v xs

/-- Insertion sort over integers. -/
def sortInts (l : List Int) : List Int := l.foldr insertSorted []

/-- The sorted list of distinct values of `arr`, as returned by
`numpy.unique`. -/
def uniqueSorted (arr : List Int) : List Int := sortInts arr.dedup

/-- The inverse-index array returned by `numpy.unique(..., return_inverse=True)`:
for each cell, the position of its value in the sorted distinct-value list. -/
def inverseIdx (pal : List Int) (arr : List Int) : List Nat :=
  arr.map (fun v => (firstIdx v pal).getD 0)

/-- `Translator._biomes_to_universal` / `_biomes_from_universal`, shared
shape: factor the array into distinct values plus index array, map each
distinct value once, reassemble by indexing. -/
def biomesRecode (f : Int → Int) (arr : List Int) : List Int :=
  let biome_palette := uniqueSorted arr
  let universal_biome_palette := biome_palette.map f
  (inverseIdx biome_palette arr).map (fun i => universal_biome_palette.getD i 0)

/-- The number of invocations of the biome-mapping function made by
`biomesRecode`: one per entry of the distinct-value sequence. -/
def biomeCallCount (arr : List Int) : Nat := (uniqueSorted arr).length

/-! ### The translation engine (`Translator._translate` and its wrappers) -/

/-- `GetBlockCallback`: takes coordinates relative to the block in
question, returns a block (palette cell) and optionally a block entity. -/
abbrev GetBlockCb := Int × Int × Int → PObj × Option BlockEntity

/-- The neighbor resolver `get_chunk_callback`: chunk-grid delta to
(chunk, palette). -/
abbrev GetChunkCb := Int → Int → Chunk × List PObj

/-- The quadruple a `TranslateCallback` returns: converted block (Python
`None` possible), companion block entity, produced entities, and the
needs-context flag. -/
structure TRes where
  block : Option Block
  block_entity : Option BlockEntity
  entities : List Entity
  extra : Bool
deriving DecidableEq, Repr

/-- A per-block translate wrapper; `Except.error ()` models the
`NotImplementedError` raised for entity input on the `to_universal` path. -/
abbrev TranslateCb := PObj → Option GetBlockCb → Except Unit TRes

/-- A per-layer version rule `version.block.to_universal` /
`from_universal`: layer and optional neighbor callback to a block-or-entity
result, an optional companion block entity, and the needs-context flag. -/
abbrev LayerRule := Block → Option GetBlockCb → (Block ⊕ Entity) × Option BlockEntity × Bool

/-- `next((be for be in bes if (be.x, be.y, be.z) == (ax, ay, az)), None)`:
the first block entity at the given absolute position. -/
def findBlockEntityAt (bes : List BlockEntity) (ax ay az : Int) : Option BlockEntity :=
  bes.find? (fun be => be.x = ax ∧ be.y = ay ∧ be.z = az)

/-- The `get_block_at` closure built per deferred coordinate (x, y, z):
shift the offset by the coordinate, compute absolute world coordinates and
the chunk-grid delta by floor division, then resolve locally or through
the neighbor resolver. -/
def get_block_at (chunk : Chunk) (palette : List PObj) (get_chunk_callback : GetChunkCb)
    (x y z : Int) (pos : Int × Int × Int) : PObj × Option BlockEntity :=
  let dx := pos.1 + x
  let dy := pos.2.1 + y
  let dz := pos.2.2 + z
  let abs_x := dx + chunk.cx * 16
  let abs_y := dy
  let abs_z := dz + chunk.cz * 16
  let cx := dx.fdiv 16
  let cz := dz.fdiv 16
  if cx = 0 ∧ cz = 0 then
    (palette.getD (chunk.blocks (dx.emod 16, dy, dz.emod 16)) .null,
     findBlockEntityAt chunk.block_entities abs_x abs_y abs_z)
  else
    let lc := get_chunk_callback cx cz
    (lc.2.getD ((lc.1).blocks (dx.emod 16, dy, dz.emod 16)) .null,
     findBlockEntityAt (lc.1).block_entities abs_x abs_y abs_z)

/-- One step of the per-layer loop shared by the two translate wrappers:
merge a block-like output into the composite (companion block entity kept
only at depth 0), accumulate an entity-like output, OR the flags. -/
def layerStep (rule : LayerRule) (cb : Option GetBlockCb) (depth : Nat)
    (layer : Block) (acc : TRes) : TRes :=
  match rule layer cb with
  | (Sum.inl ob, obe, extra) =>
      { block := some (match acc.block with
                       | none => ob
                       | some fb => fb.merge ob),
        block_entity := if depth = 0 then obe else acc.block_entity,
        entities := acc.entities,
        extra := acc.extra || extra }
  | (Sum.inr e, _, extra) =>
      { acc with entities := acc.entities ++ [e], extra := acc.extra || extra }

/-- The `for depth, block in enumerate(...)` loop of the translate
wrappers. -/
def layersLoop (rule : LayerRule) (cb : Option GetBlockCb) :
    Nat → List Block → TRes → TRes
  | _, [], acc => acc
  | depth, l :: rest, acc => layersLoop rule cb (depth + 1) rest (layerStep rule cb depth l acc)

/-- The nested `translate` wrapper defined inside `to_universal`
(`entityFails = true`, entity input raises) and `from_universal`
(`entityFails = false`, entity input falls through to the defaults). -/
def translateObj (rule : LayerRule) (entityFails : Bool) : TranslateCb :=
  fun input cb =>
    match input with
    | PObj.blk b => .ok (layersLoop rule cb 0 b.layers ⟨none, none, [], false⟩)
    | PObj.ent _ => if entityFails then .error () else .ok ⟨none, none, [], false⟩
    | PObj.null => .ok ⟨none, none, [], false⟩

/-- The value inserted into the output palette for a translate result:
the composite block, or Python `None` when no layer produced a block. -/
def toPObj : Option Block → PObj
  | some b => PObj.blk b
  | none => PObj.null

/-- State of the context-free first pass of `_translate`: deferred slot
indices, rebuilt block-entity list, the deduplicating output palette, and
the slot-level remap in insertion order. -/
structure P1State where
  todo : List Nat
  obes : List BlockEntity
  finished : List PObj
  pmaps : List (Nat × Nat)
deriving Repr

/-- The context-free first pass: translate each palette slot with no
neighbor callback; defer it when the flag is set and a resolver exists,
otherwise accept it into the output palette and place companion block
entities at every occurrence. -/
def firstPass (tr : TranslateCb) (ch : Chunk) (hasCb : Bool) :
    List PObj → Nat → P1State → Except Unit P1State
  | [], _, st => .ok st
  | p :: rest, i, st =>
    match tr p none with
    | .error e => .error e
    | .ok res =>
      if res.extra && hasCb then
        firstPass tr ch hasCb rest (i + 1) { st with todo := st.todo ++ [i] }
      else
        let fin := get_add_block st.finished (toPObj res.block)
        let obes' := match res.block_entity with
          | some be => st.obes ++ (ch.whereEq i).map
              (fun c => be.new_at_location (c.1 + ch.cx * 16) c.2.1 (c.2.2 + ch.cz * 16))
          | none => st.obes
        firstPass tr ch hasCb rest (i + 1)
          { todo := st.todo, obes := obes', finished := fin.1,
            pmaps := st.pmaps ++ [(i, fin.2)] }

/-- State of the context-aware second pass: block-entity list, output
palette, and the coordinate-level remap. -/
structure P2State where
  obes : List BlockEntity
  finished : List PObj
  bmaps : List (Coord × Nat)
deriving Repr

/-- Inner loop of the second pass: per occurrence of a deferred slot,
re-translate with the `get_block_at` closure bound to that coordinate. -/
def coordLoop (tr : TranslateCb) (ch : Chunk) (palette : List PObj) (gcb : GetChunkCb) :
    List Coord → P2State → Except Unit P2State
  | [], st => .ok st
  | c :: rest, st =>
    match tr (palette.getD (ch.blocks c) .null)
            (some (get_block_at ch palette gcb c.1 c.2.1 c.2.2)) with
    | .error e => .error e
    | .ok res =>
      let obes' := match res.block_entity with
        | some be => st.obes ++
            [be.new_at_location (c.1 + ch.cx * 16) c.2.1 (c.2.2 + ch.cz * 16)]
        | none => st.obes
      let fin := get_add_block st.finished (toPObj res.block)
      coordLoop tr ch palette gcb rest
        { obes := obes', finished := fin.1, bmaps := st.bmaps ++ [(c, fin.2)] }

/-- Outer loop of the second pass over the deferred slot indices. -/
def todoLoop (tr : TranslateCb) (ch : Chunk) (palette : List PObj) (gcb : GetChunkCb) :
    List Nat → P2State → Except Unit P2State
  | [], st => .ok st
  | i :: rest, st =>
    match coordLoop tr ch palette gcb (ch.whereEq i) st with
    | .error e => .error e
    | .ok st' => todoLoop tr ch palette gcb rest st'

/-- The slot-level commit `chunk.blocks[chunk.blocks == old] = new`,
applied sequentially in remap insertion order. -/
def applyPaletteMappings (g : Coord → Nat) : List (Nat × Nat) → Coord → Nat
  | [] => g
  | (o, n) :: rest => applyPaletteMappings (fun c => if g c = o then n else g c) rest

/-- The coordinate-level commit `chunk.blocks[x, y, z] = new`. -/
def applyBlockMappings (g : Coord → Nat) : List (Coord × Nat) → Coord → Nat
  | [] => g
  | (c0, n) :: rest => applyBlockMappings (fun c => if c = c0 then n else g c) rest

/-- `Translator._translate`: short-circuit unless `full_translate`, run the
context-free pass, then the context-aware pass over deferred slots, then
commit both remaps, replace the block-entity list and return the finished
palette.  When no resolver was supplied the deferred list is empty, so the
placeholder callback passed to the second pass is never consulted. -/
def translate_engine (tr : TranslateCb) (ch : Chunk) (palette : List PObj)
    (gcb : Option GetChunkCb) (full_translate : Bool) :
    Except Unit (Chunk × List PObj) :=
  if full_translate = false then .ok (ch, palette)
  else
    match firstPass tr ch gcb.isSome palette 0 ⟨[], [], [], []⟩ with
    | .error e => .error e
    | .ok st1 =>
      match todoLoop tr ch palette (gcb.getD (fun _ _ => (ch, palette)))
              st1.todo ⟨st1.obes, st1.finished, []⟩ with
      | .error e => .error e
      | .ok st2 =>
        .ok ({ ch with
               blocks := applyBlockMappings
                 (applyPaletteMappings ch.blocks st1.pmaps) st2.bmaps,
               block_entities := st2.obes },
             st2.finished)

/-! ### Version rules and the public operations -/

/-- The per-version rule set resolved from the translation manager:
directional per-layer block rules, directional biome maps, and the
optional block-entity alias maps. -/
structure VersionRules where
  block_to_universal : LayerRule
  block_from_universal : LayerRule
  biome_to_universal : Int → Int
  biome_from_universal : Int → Int
  block_entity_map : Option (List (String × String))
  block_entity_map_inverse : Option (List (String × String))

/-- `Translator._unpack_palette` of the base translator: identity. -/
def _unpack_palette (palette : List PObj) : List PObj := palette

/-- `Translator._pack_palette` of the base translator: identity. -/
def _pack_palette (palette : List PObj) : List PObj := palette

/-- The forward block-entity aliasing loop in `to_universal`: a bare name
found in the map gets the canonical namespaced name; otherwise only a
diagnostic is logged. -/
def aliasToUniversal (m? : Option (List (String × String))) (bes : List BlockEntity) :
    List BlockEntity :=
  match m? with
  | none => bes
  | some m => bes.map (fun be =>
      match be.ns, m.lookup be.base_name with
      | none, some nn => { be with namespaced_name := nn }
      | _, _ => be)

/-- The inverse block-entity aliasing loop in `from_universal`. -/
def aliasFromUniversal (m? : Option (List (String × String))) (bes : List BlockEntity) :
    List BlockEntity :=
  match m? with
  | none => bes
  | some m => bes.map (fun be =>
      match m.lookup be.namespaced_name with
      | some nn => { be with namespaced_name := nn }
      | none => be)

/-- `Translator.to_universal`: unpack the palette, recode biomes, alias
block entities, then run the engine with the `to_universal` wrapper. -/
def to_universal (rules : VersionRules) (ch : Chunk) (palette : List PObj)
    (gcb : Option GetChunkCb) (full_translate : Bool) :
    Except Unit (Chunk × List PObj) :=
  let palette := _unpack_palette palette
  let ch := { ch with
              biomes := biomesRecode rules.biome_to_universal ch.biomes,
              block_entities := aliasToUniversal rules.block_entity_map ch.block_entities }
  translate_engine (translateObj rules.block_to_universal true) ch palette gcb full_translate

/-- `Translator.from_universal`: run the engine with the `from_universal`
wrapper, then pack the palette, recode biomes and alias block entities. -/
def from_universal (rules : VersionRules) (ch : Chunk) (palette : List PObj)
    (gcb : Option GetChunkCb) (full_translate : Bool) :
    Except Unit (Chunk × List PObj) :=
  match translate_engine (translateObj rules.block_from_universal false) ch palette
          gcb full_translate with
  | .error e => .error e
  | .ok (ch', pal') =>
    .ok ({ ch' with
           biomes := biomesRecode rules.biome_from_universal ch'.biomes,
           block_entities := aliasFromUniversal rules.block_entity_map_inverse
             ch'.block_entities },
         _pack_palette pal')

/-- The identity per-layer rule: each layer maps to itself, no companion
block entity, no context needed. -/
def idLayerRule : LayerRule := fun b _ => (Sum.inl b, none, false)

/-- The identity rule tables of the round-trip property: identity layer
rule in both directions, identity biome maps, no alias maps. -/
def idVersionRules : VersionRules where
  block_to_universal := idLayerRule
  block_from_universal := idLayerRule
  biome_to_universal := id
  biome_from_universal := id
  block_entity_map := none
  block_entity_map_inverse := none

/-! ### Theorems: version-range table (claim C7) -/

/-- C7, counterexample: `chunk_to_game_version` is Python's lexicographic
tuple minimum, not the componentwise minimum.  At
`max_game_version = (1,11,9,0)` and chunk version 13 (table maximum
`(1,11,1,9999)`) the code returns `(1,11,1,9999)` whereas the claimed
componentwise minimum is `(1,11,1,0)`. -/
theorem c7_counterexample :
    chunk_to_game_version (1, 11, 9, 0) 13 = some (1, 11, 1, 9999) ∧
    componentwiseMinSpec (1, 11, 1, 9999) (1, 11, 9, 0) = (1, 11, 1, 0) ∧
    ((1, 11, 1, 9999) : GV) ≠ (1, 11, 1, 0) := by
  refine ⟨rfl, rfl, by decide⟩

/-- C7, amended: `chunk_to_game_version` returns the lexicographic
(Python tuple-ordering) minimum of the table's recorded maximum game
version and `max_game_version`; `chunk_to_game_version((1,20,0,0), 15)`
returns `(1,20,0,0)` and `game_to_chunk_version((1,11,1,0))` returns
chunk version 13. -/
theorem c7_version_table :
    (∀ (maxgv : GV) (cv : Nat) (rng : GV × GV),
        chunk_version_to_max_version.lookup cv = some rng →
        chunk_to_game_version maxgv cv = some (gvMin rng.2 maxgv)) ∧
    chunk_to_game_version (1, 20, 0, 0) 15 = some (1, 20, 0, 0) ∧
    game_to_chunk_version (1, 11, 1, 0) = some 13 := by
  refine ⟨fun maxgv cv rng h => ?_, rfl, rfl⟩
  simp [chunk_to_game_version, h]

/-- C7, witness for the amended theorem at chunk version 13. -/
theorem c7_version_table_witness :
    chunk_version_to_max_version.lookup 13 =
      some ((1, 11, 1, 0), (1, 11, 1, 9999)) ∧
    chunk_to_game_version (1, 11, 9, 0) 13 =
      some (gvMin (1, 11, 1, 9999) (1, 11, 9, 0)) :=
  ⟨rfl, c7_version_table.1 (1, 11, 9, 0) 13 ((1, 11, 1, 0), (1, 11, 1, 9999)) rfl⟩

/-! ### Theorems: neighbor lookup (claim C2) -/

/-- C2: the neighbor-lookup closure probes absolute coordinates
`(x+dx+cx*16, y+dy, z+dz+cz*16)` and computes the chunk-grid delta as
`(floor((x+dx)/16), floor((z+dz)/16))`; a zero delta resolves against the
current chunk's grid and palette, any other delta goes through the
supplied resolver at exactly that delta.  In particular local (15, y, 0)
in chunk (2, 5) with offset (1, 0, 0) resolves through the neighbor at
delta (1, 0) and probes absolute (48, y, 80). -/
theorem c2_neighbor_lookup :
    (∀ (ch : Chunk) (pal : List PObj) (gcb : GetChunkCb) (x y z dx dy dz : Int),
      get_block_at ch pal gcb x y z (dx, dy, dz) =
        if (x + dx).fdiv 16 = 0 ∧ (z + dz).fdiv 16 = 0 then
          (pal.getD (ch.blocks ((x + dx).emod 16, y + dy, (z + dz).emod 16)) .null,
           findBlockEntityAt ch.block_entities
             (x + dx + ch.cx * 16) (y + dy) (z + dz + ch.cz * 16))
        else
          ((gcb ((x + dx).fdiv 16) ((z + dz).fdiv 16)).2.getD
             ((gcb ((x + dx).fdiv 16) ((z + dz).fdiv 16)).1.blocks
               ((x + dx).emod 16, y + dy, (z + dz).emod 16)) .null,
           findBlockEntityAt
             ((gcb ((x + dx).fdiv 16) ((z + dz).fdiv 16)).1).block_entities
             (x + dx + ch.cx * 16) (y + dy) (z + dz + ch.cz * 16))) ∧
    (∀ (gc : List Coord) (bl : Coord → Nat) (bes : List BlockEntity)
       (es : List Entity) (bio : List Int) (pal : List PObj) (gcb : GetChunkCb)
       (y : Int),
      get_block_at ⟨2, 5, gc, bl, bes, es, bio⟩ pal gcb 15 y 0 (1, 0, 0) =
        ((gcb 1 0).2.getD ((gcb 1 0).1.blocks (0, y, 0)) .null,
         findBlockEntityAt ((gcb 1 0).1).block_entities 48 y 80)) := by
  constructor
  · intro ch pal gcb x y z dx dy dz
    simp only [get_block_at, Int.add_comm dx x, Int.add_comm dy y, Int.add_comm dz z]
  · intro gc bl bes es bio pal gcb y
    simp only [get_block_at]
    norm_num

/-! ### Theorems: shallow (deep = false) translation (claim C9) -/

/-- A one-cell chunk with a single biome value 0, exercising the shallow
translation path. -/
def shallowChunk : Chunk where
  cx := 0
  cz := 0
  gridCoords := [(0, 0, 0)]
  blocks := fun _ => 0
  block_entities := []
  entities := []
  biomes := [0]

/-- C9, counterexample: with `deep = false` the biome array is still
recoded — the claim that it is returned identical to the input is false.
With a biome map adding one, input biomes `[0]` come back as `[1]`. -/
theorem c9_counterexample :
    (to_universal { idVersionRules with biome_to_universal := (· + 1) }
        shallowChunk [] none false).map (fun p => p.1.biomes) = .ok [1] ∧
    shallowChunk.biomes = [0] :=
  ⟨rfl, rfl⟩

/-- C9, amended: with `deep = false` no per-block rule is invoked and the
block grid is returned unchanged, but the pre/post steps still run: the
palette unpack/pack hook, the biome recoding and the block-entity
aliasing are applied even on the shallow path. -/
theorem c9_shallow_translate :
    ∀ (rules : VersionRules) (ch : Chunk) (pal : List PObj) (gcb : Option GetChunkCb),
      to_universal rules ch pal gcb false =
        .ok ({ ch with
               biomes := biomesRecode rules.biome_to_universal ch.biomes,
               block_entities :=
                 aliasToUniversal rules.block_entity_map ch.block_entities },
             _unpack_palette pal) ∧
      from_universal rules ch pal gcb false =
        .ok ({ ch with
               biomes := biomesRecode rules.biome_from_universal ch.biomes,
               block_entities :=
                 aliasFromUniversal rules.block_entity_map_inverse ch.block_entities },
             _pack_palette pal) :=
  fun _ _ _ _ => ⟨rfl, rfl⟩

/-! ### Lemmas: first-occurrence index -/

theorem firstIdx_getD {α : Type} [DecidableEq α] {b : α} {l : List α} {m : Nat} :
    firstIdx b l = some m → ∀ d, l.getD m d = b := by
  induction l generalizing m with
  | nil => intro h; simp [firstIdx] at h
  | cons x xs ih =>
    intro h d
    by_cases hx : x = b
    · simp [firstIdx, hx] at h
      subst h
      simpa using hx
    · simp [firstIdx, hx] at h
      obtain ⟨m', hm', rfl⟩ := h
      simpa using ih hm' d

theorem firstIdx_lt {α : Type} [DecidableEq α] {b : α} {l : List α} {m : Nat} :
    firstIdx b l = some m → m < l.length := by
  induction l generalizing m with
  | nil => intro h; simp [firstIdx] at h
  | cons x xs ih =>
    intro h
    by_cases hx : x = b
    · simp [firstIdx, hx] at h
      subst h
      simp
    · simp [firstIdx, hx] at h
      obtain ⟨m', hm', rfl⟩ := h
      simpa using ih hm'

theorem firstIdx_mem {α : Type} [DecidableEq α] {b : α} {l : List α} {m : Nat}
    (h : firstIdx b l = some m) : b ∈ l := by
  have hlt := firstIdx_lt h
  have := firstIdx_getD h b
  rw [List.getD_eq_getElem l b hlt] at this
  exact this ▸ List.getElem_mem hlt

theorem firstIdx_eq_none {α : Type} [DecidableEq α] {b : α} {l : List α} :
    firstIdx b l = none ↔ b ∉ l := by
  induction l with
  | nil => simp [firstIdx]
  | cons x xs ih =>
    by_cases hx : x = b
    · simp [firstIdx, hx]
    · simp [firstIdx, hx, ih, Ne.symm hx]

theorem firstIdx_append {α : Type} [DecidableEq α] {b : α} {l : List α} {m : Nat}
    (h : firstIdx b l = some m) (l' : List α) :
    firstIdx b (l ++ l') = some m := by
  induction l generalizing m with
  | nil => simp [firstIdx] at h
  | cons x xs ih =>
    by_cases hx : x = b
    · simp [firstIdx, hx] at h ⊢
      exact h
    · simp [firstIdx, hx] at h ⊢
      obtain ⟨m', hm', rfl⟩ := h
      exact ⟨m', ih hm', rfl⟩

theorem firstIdx_append_self {α : Type} [DecidableEq α] {b : α} {l : List α}
    (h : b ∉ l) : firstIdx b (l ++ [b]) = some l.length := by
  induction l with
  | nil => simp [firstIdx]
  | cons x xs ih =>
    simp at h
    simp [firstIdx, Ne.symm h.1, ih h.2]

theorem firstIdx_map_getD {α β : Type} [DecidableEq α] {b : α} {l : List α} {m : Nat}
    (h : firstIdx b l = some m) (f : α → β) (d : β) :
    (l.map f).getD m d = f b := by
  induction l generalizing m with
  | nil => simp [firstIdx] at h
  | cons x xs ih =>
    by_cases hx : x = b
    · simp [firstIdx, hx] at h
      subst h
      simp [hx]
    · simp [firstIdx, hx] at h
      obtain ⟨m', hm', rfl⟩ := h
      simpa using ih hm'

/-! ### Lemmas: sorted distinct values (`numpy.unique`) -/

theorem mem_insertSorted {v a : Int} {l : List Int} :
    a ∈ insertSorted v l ↔ a = v ∨ a ∈ l := by
  induction l with
  | nil => simp [insertSorted]
  | cons x xs ih =>
    by_cases hvx : v ≤ x
    · simp [insertSorted, hvx]
    · simp [insertSorted, hvx, ih]
      tauto

theorem nodup_insertSorted {v : Int} {l : List Int} (hv : v ∉ l) (hl : l.Nodup) :
    (insertSorted v l).Nodup := by
  induction l with
  | nil => simp [insertSorted]
  | cons x xs ih =>
    simp at hv
    rw [List.nodup_cons] at hl
    by_cases hvx : v ≤ x
    · simp [insertSorted, hvx, List.nodup_cons, hl.1, hl.2, hv.2, hv.1, Ne.symm hv.1]
    · simp only [insertSorted, hvx, if_neg]
      refine List.Nodup.cons ?_ (ih hv.2 hl.2)
      intro hx
      rcases mem_insertSorted.mp hx with h | h
      · exact hv.1 h.symm
      · exact hl.1 h

theorem mem_sortInts {a : Int} {l : List Int} : a ∈ sortInts l ↔ a ∈ l := by
  induction l with
  | nil => simp [sortInts]
  | cons x xs ih =>
    show a ∈ insertSorted x (sortInts xs) ↔ _
    simp [mem_insertSorted, ih]

theorem nodup_sortInts {l : List Int} (h : l.Nodup) : (sortInts l).Nodup := by
  induction l with
  | nil => simp [sortInts]
  | cons x xs ih =>
    rw [List.nodup_cons] at h
    exact nodup_insertSorted (fun hx => h.1 (mem_sortInts.mp hx)) (ih h.2)

theorem length_insertSorted {v : Int} {l : List Int} :
    (insertSorted v l).length = l.length + 1 := by
  induction l with
  | nil => simp [insertSorted]
  | cons x xs ih =>
    by_cases hvx : v ≤ x
    · simp [insertSorted, hvx]
    · simp [insertSorted, hvx, ih]

theorem length_sortInts {l : List Int} : (sortInts l).length = l.length := by
  induction l with
  | nil => simp [sortInts]
  | cons x xs ih =>
    show (insertSorted x (sortInts xs)).length = _
    simp [length_insertSorted, ih]

theorem mem_uniqueSorted {a : Int} {arr : List Int} :
    a ∈ uniqueSorted arr ↔ a ∈ arr := by
  simp [uniqueSorted, mem_sortInts]

theorem nodup_uniqueSorted {arr : List Int} : (uniqueSorted arr).Nodup :=
  nodup_sortInts arr.nodup_dedup

/-- The reassembled array equals the input mapped cell-by-cell: indexing
the once-per-distinct-value results by the inverse index array recovers
`f` at every cell. -/
theorem biomesRecode_eq_map (f : Int → Int) (arr : List Int) :
    biomesRecode f arr = arr.map f := by
  unfold biomesRecode inverseIdx
  rw [List.map_map]
  refine List.map_congr_left (fun v hv => ?_)
  have hvmem : v ∈ uniqueSorted arr := mem_uniqueSorted.mpr hv
  obtain ⟨m, hm⟩ : ∃ m, firstIdx v (uniqueSorted arr) = some m := by
    rcases h : firstIdx v (uniqueSorted arr) with _ | m
    · exact absurd (firstIdx_eq_none.mp h) (by simpa using hvmem)
    · exact ⟨m, rfl⟩
  simp only [Function.comp, hm, Option.getD_some]
  exact firstIdx_map_getD hm f 0

/-! ### Theorems: biome recoder (claim C6) -/

/-- C6: the biome recoder applies the mapping once per distinct value (the
invocation sequence is the duplicate-free list of values present, of
length `arr.dedup.length`), reassembles to the input shape (length
preserved; each cell gets its value's image), and with inverse maps the
(16,16) round trip reproduces the input exactly. -/
theorem c6_biome_recode :
    (∀ (f : Int → Int) (arr : List Int),
      (biomesRecode f arr).length = arr.length ∧
      biomesRecode f arr = arr.map f ∧
      (uniqueSorted arr).Nodup ∧
      (∀ v, v ∈ uniqueSorted arr ↔ v ∈ arr) ∧
      biomeCallCount arr = arr.dedup.length) ∧
    (∀ (f g : Int → Int) (arr : List Int),
      arr.length = 256 →
      (∀ v ∈ arr, g (f v) = v) →
      biomesRecode g (biomesRecode f arr) = arr) := by
  constructor
  · intro f arr
    refine ⟨?_, biomesRecode_eq_map f arr, nodup_uniqueSorted,
            fun v => mem_uniqueSorted, ?_⟩
    · rw [biomesRecode_eq_map]
      simp
    · simp [biomeCallCount, uniqueSorted, length_sortInts]
  · intro f g arr _ hinv
    rw [biomesRecode_eq_map, biomesRecode_eq_map, List.map_map]
    calc arr.map (g ∘ f) = arr.map id := List.map_congr_left (fun v hv => hinv v hv)
    _ = arr := List.map_id arr

/-- C6, witness: a concrete 256-cell biome array with mutually inverse
maps round-trips exactly. -/
theorem c6_biome_recode_witness :
    (List.replicate 256 (7 : Int)).length = 256 ∧
    biomesRecode (· - 1) (biomesRecode (· + 1) (List.replicate 256 (7 : Int))) =
      List.replicate 256 (7 : Int) :=
  ⟨List.length_replicate 256 7,
   c6_biome_recode.2 (· + 1) (· - 1) (List.replicate 256 (7 : Int))
    (List.length_replicate 256 7) (by intro v hv; show v + 1 - 1 = v; omega)⟩

/-! ### Lemmas and theorems: multi-layer merge (claim C8) -/

/-- The per-layer rule outputs of a block, in layer order. -/
def layerOutputs (rule : LayerRule) (cb : Option GetBlockCb) (b : Block) :
    List ((Block ⊕ Entity) × Option BlockEntity × Bool) :=
  b.layers.map (fun l => rule l cb)

/-- Folding the block-like outputs into an accumulating composite, the way
`final_block = output` / `final_block += output` does. -/
def mergeFrom (acc : Option Block) : List Block → Option Block
  | [] => acc
  | ob :: rest =>
      mergeFrom (some (match acc with
                       | none => ob
                       | some fb => fb.merge ob)) rest

/-- The composite block assembled from the block-like layer outputs only. -/
def mergeBlockOutputs (l : List Block) : Option Block := mergeFrom none l

/-- The block-like results among the layer outputs. -/
def blockOutputsOf (outs : List ((Block ⊕ Entity) × Option BlockEntity × Bool)) :
    List Block :=
  outs.filterMap (fun o => match o.1 with
                           | Sum.inl ob => some ob
                           | Sum.inr _ => none)

/-- The entity-like results among the layer outputs. -/
def entityOutputsOf (outs : List ((Block ⊕ Entity) × Option BlockEntity × Bool)) :
    List Entity :=
  outs.filterMap (fun o => match o.1 with
                           | Sum.inl _ => none
                           | Sum.inr e => some e)

/-- The OR over the needs-context flags of the layer outputs. -/
def orFlags (acc : Bool) (outs : List ((Block ⊕ Entity) × Option BlockEntity × Bool)) :
    Bool :=
  outs.foldl (fun a o => a || o.2.2) acc

/-- Unrolling the layer loop from any depth at least 1: deeper layers
merge blocks, append entities and OR flags, but never touch the companion
block entity slot. -/
theorem layersLoop_tail (rule : LayerRule) (cb : Option GetBlockCb) :
    ∀ (layers : List Block) (k : Nat) (acc : TRes),
    layersLoop rule cb (k + 1) layers acc =
      { block := mergeFrom acc.block (blockOutputsOf (layers.map (fun l => rule l cb))),
        block_entity := acc.block_entity,
        entities := acc.entities ++ entityOutputsOf (layers.map (fun l => rule l cb)),
        extra := orFlags acc.extra (layers.map (fun l => rule l cb)) } := by
  intro layers
  induction layers with
  | nil =>
    intro k acc
    simp [layersLoop, mergeFrom, blockOutputsOf, entityOutputsOf, orFlags]
  | cons l rest ih =>
    intro k acc
    show layersLoop rule cb (k + 2) rest (layerStep rule cb (k + 1) l acc) = _
    rcases h : rule l cb with ⟨out, obe, ex⟩
    cases out with
    | inl ob =>
      rw [show k + 2 = (k + 1) + 1 from rfl, ih]
      simp [layerStep, h, blockOutputsOf, entityOutputsOf, orFlags, mergeFrom]
    | inr e =>
      rw [show k + 2 = (k + 1) + 1 from rfl, ih]
      simp [layerStep, h, blockOutputsOf, entityOutputsOf, orFlags, mergeFrom]

/-- The full characterization of the per-block wrapper on a block input:
composite block from the block-like outputs, depth-0 companion only,
entity-like outputs accumulated, flags ORed. -/
theorem translateObj_blk_eq :
    ∀ (rule : LayerRule) (entityFails : Bool) (b : Block) (cb : Option GetBlockCb),
    translateObj rule entityFails (PObj.blk b) cb = .ok
      { block := mergeBlockOutputs (blockOutputsOf (layerOutputs rule cb b)),
        block_entity := (match rule ⟨b.base, []⟩ cb with
                         | (Sum.inl _, obe, _) => obe
                         | (Sum.inr _, _, _) => none),
        entities := entityOutputsOf (layerOutputs rule cb b),
        extra := orFlags false (layerOutputs rule cb b) } := by
  intro rule entityFails b cb
  show Except.ok (layersLoop rule cb 0 b.layers ⟨none, none, [], false⟩) = _
  have hl : b.layers = ⟨b.base, []⟩ :: b.extras.map (fun e => ⟨e, []⟩) := rfl
  rw [hl]
  show Except.ok (layersLoop rule cb 1 _ (layerStep rule cb 0 _ _)) = _
  rw [show (1 : Nat) = 0 + 1 from rfl, layersLoop_tail]
  rcases h : rule ⟨b.base, []⟩ cb with ⟨out, obe, ex⟩
  cases out with
  | inl ob =>
    simp [layerStep, h, layerOutputs, hl, blockOutputsOf, entityOutputsOf,
          orFlags, mergeBlockOutputs, mergeFrom]
  | inr e =>
    simp [layerStep, h, layerOutputs, hl, blockOutputsOf, entityOutputsOf,
          orFlags, mergeBlockOutputs, mergeFrom]

/-- C8: for a block input (either direction), the wrapper's result is
exactly: the composite of the block-like layer outputs, the companion
block entity of the depth-0 layer alone (and only when that layer came
back block-like), the entity-like outputs accumulated into the
produced-entities list, and the OR of all layer flags.  Companion block
entities of layers at depth greater than 0 do not appear, and entity-like
outputs never enter the composite block. -/
theorem c8_layer_merge :
    ∀ (rule : LayerRule) (entityFails : Bool) (b : Block) (cb : Option GetBlockCb),
    translateObj rule entityFails (PObj.blk b) cb = .ok
      { block := mergeBlockOutputs (blockOutputsOf (layerOutputs rule cb b)),
        block_entity := (match rule ⟨b.base, []⟩ cb with
                         | (Sum.inl _, obe, _) => obe
                         | (Sum.inr _, _, _) => none),
        entities := entityOutputsOf (layerOutputs rule cb b),
        extra := orFlags false (layerOutputs rule cb b) } :=
  translateObj_blk_eq

/-! ### Lemmas and theorems: entity asymmetry (claim C5) -/

/-- An entity anywhere in the palette makes the context-free pass of the
`to_universal` direction raise. -/
theorem firstPass_entity_error (rule : LayerRule) (ch : Chunk) (hb : Bool) :
    ∀ (pal : List PObj) (i : Nat) (st : P1State) (e : Entity),
    PObj.ent e ∈ pal →
    firstPass (translateObj rule true) ch hb pal i st = .error () := by
  intro pal
  induction pal with
  | nil => intro i st e he; simp at he
  | cons p rest ih =>
    intro i st e he
    rcases List.mem_cons.mp he with heq | hmem
    · rw [← heq]
      simp [firstPass, translateObj]
    · cases p with
      | blk b =>
        have hv : translateObj rule true (PObj.blk b) none =
            .ok (layersLoop rule none 0 b.layers ⟨none, none, [], false⟩) := rfl
        simp only [firstPass, hv]
        split
        · exact ih _ _ e hmem
        · exact ih _ _ e hmem
      | ent e' => simp [firstPass, translateObj]
      | null =>
        have hv : translateObj rule true PObj.null none =
            .ok ⟨none, none, [], false⟩ := rfl
        simp only [firstPass, hv]
        split
        · exact ih _ _ e hmem
        · exact ih _ _ e hmem

/-- C5, counterexample: on the `from_universal` path an entity input does
not fail, but the entity is dropped — the produced-entities list of the
result is empty instead of containing the input entity. -/
theorem c5_counterexample :
    translateObj idVersionRules.block_from_universal false
      (PObj.ent ⟨"pig"⟩) none = .ok ⟨none, none, [], false⟩ ∧
    (⟨"pig"⟩ : Entity) ∉ (⟨none, none, [], false⟩ : TRes).entities :=
  ⟨rfl, by simp⟩

/-- C5, amended: `to_universal` on an entity input fails (and an entity in
the palette aborts the whole deep translate with no partial output), while
`from_universal` on the same entity input does not fail but returns the
defaults — no block, no companion, an empty produced-entities list — the
entity is silently dropped rather than passed through in the output
entity list. -/
theorem c5_entity_asymmetry :
    (∀ (rule : LayerRule) (e : Entity) (cb : Option GetBlockCb),
      translateObj rule true (PObj.ent e) cb = .error ()) ∧
    (∀ (rules : VersionRules) (ch : Chunk) (pal : List PObj)
       (gcb : Option GetChunkCb) (e : Entity),
      PObj.ent e ∈ pal →
      to_universal rules ch pal gcb true = .error ()) ∧
    (∀ (rule : LayerRule) (e : Entity) (cb : Option GetBlockCb),
      translateObj rule false (PObj.ent e) cb = .ok ⟨none, none, [], false⟩) := by
  refine ⟨fun _ _ _ => rfl, ?_, fun _ _ _ => rfl⟩
  intro rules ch pal gcb e he
  show translate_engine _ _ _ _ true = _
  rw [translate_engine]
  rw [firstPass_entity_error rules.block_to_universal _ gcb.isSome
    (_unpack_palette pal) 0 ⟨[], [], [], []⟩ e he]
  rfl

/-- C5, witness: a concrete palette holding an entity aborts the deep
`to_universal` call. -/
theorem c5_entity_asymmetry_witness :
    PObj.ent ⟨"pig"⟩ ∈ [PObj.ent (⟨"pig"⟩ : Entity)] ∧
    to_universal idVersionRules shallowChunk [PObj.ent ⟨"pig"⟩] none true =
      .error () :=
  ⟨by simp, c5_entity_asymmetry.2.1 idVersionRules shallowChunk
    [PObj.ent ⟨"pig"⟩] none ⟨"pig"⟩ (by simp)⟩

/-! ### Lemmas and theorems: deferral decision (claim C4) -/

/-- The context-free result of a palette entry (defaulting on the
exceptional path, which the lemmas below exclude). -/
def entryRes (tr : TranslateCb) (p : PObj) : TRes :=
  match tr p none with
  | .ok r => r
  | .error _ => ⟨none, none, [], false⟩

/-- Whether the first pass defers a palette entry: its composite
needs-context flag AND the presence of a neighbor resolver. -/
def deferFlag (tr : TranslateCb) (hb : Bool) (p : PObj) : Bool :=
  (entryRes tr p).extra && hb

/-- The slot indices the first pass defers, starting at index `i`. -/
def todoSpec (tr : TranslateCb) (hb : Bool) : List PObj → Nat → List Nat
  | [], _ => []
  | p :: rest, i =>
    (if deferFlag tr hb p then [i] else []) ++ todoSpec tr hb rest (i + 1)

/-- The slot indices the first pass accepts immediately, starting at
index `i`. -/
def acceptSpec (tr : TranslateCb) (hb : Bool) : List PObj → Nat → List Nat
  | [], _ => []
  | p :: rest, i =>
    (if deferFlag tr hb p then [] else [i]) ++ acceptSpec tr hb rest (i + 1)

theorem firstPass_todo_pmaps (tr : TranslateCb) (ch : Chunk) (hb : Bool) :
    ∀ (pal : List PObj) (i : Nat) (st0 st1 : P1State),
    firstPass tr ch hb pal i st0 = .ok st1 →
    st1.todo = st0.todo ++ todoSpec tr hb pal i ∧
    st1.pmaps.map Prod.fst = st0.pmaps.map Prod.fst ++ acceptSpec tr hb pal i := by
  intro pal
  induction pal with
  | nil =>
    intro i st0 st1 h
    simp [firstPass] at h
    simp [← h, todoSpec, acceptSpec]
  | cons p rest ih =>
    intro i st0 st1 h
    simp only [firstPass] at h
    split at h
    · exact absurd h (by simp)
    · rename_i r htr
      have hflag : deferFlag tr hb p = (r.extra && hb) := by
        simp only [deferFlag, entryRes, htr]
      split at h
      · rename_i hx
        obtain ⟨h1, h2⟩ := ih (i + 1) _ _ h
        have hdf : deferFlag tr hb p = true := by rw [hflag]; exact hx
        constructor
        · rw [h1]; simp [todoSpec, hdf]
        · rw [h2]; simp [acceptSpec, hdf]
      · rename_i hx
        obtain ⟨h1, h2⟩ := ih (i + 1) _ _ h
        have hdf : deferFlag tr hb p = false := by rw [hflag]; simpa using hx
        constructor
        · rw [h1]; simp [todoSpec, hdf]
        · rw [h2]; simp [acceptSpec, hdf]

theorem mem_todoSpec (tr : TranslateCb) (hb : Bool) :
    ∀ (pal : List PObj) (i k : Nat),
    k ∈ todoSpec tr hb pal i ↔
      ∃ j, j < pal.length ∧ k = i + j ∧ deferFlag tr hb (pal.getD j .null) = true := by
  intro pal
  induction pal with
  | nil => intro i k; simp [todoSpec]
  | cons p rest ih =>
    intro i k
    simp only [todoSpec, List.mem_append]
    constructor
    · intro h
      rcases h with h | h
      · refine ⟨0, by simp, ?_, ?_⟩
        · rcases hf : deferFlag tr hb p with _ | _ <;> rw [hf] at h <;> simp at h
          omega
        · rcases hf : deferFlag tr hb p with _ | _ <;> rw [hf] at h <;> simp at h
          simpa using hf
      · obtain ⟨j, hj, rfl, hf⟩ := (ih (i + 1) k).mp h
        exact ⟨j + 1, by simpa using hj, by omega, by simpa using hf⟩
    · rintro ⟨j, hj, rfl, hf⟩
      cases j with
      | zero =>
        left
        simp at hf
        simp [hf]
      | succ j' =>
        right
        refine (ih (i + 1) (i + (j' + 1))).mpr ⟨j', by simpa using hj, by omega, ?_⟩
        simpa using hf

theorem mem_acceptSpec (tr : TranslateCb) (hb : Bool) :
    ∀ (pal : List PObj) (i k : Nat),
    k ∈ acceptSpec tr hb pal i ↔
      ∃ j, j < pal.length ∧ k = i + j ∧ deferFlag tr hb (pal.getD j .null) = false := by
  intro pal
  induction pal with
  | nil => intro i k; simp [acceptSpec]
  | cons p rest ih =>
    intro i k
    simp only [acceptSpec, List.mem_append]
    constructor
    · intro h
      rcases h with h | h
      · refine ⟨0, by simp, ?_, ?_⟩
        · rcases hf : deferFlag tr hb p with _ | _ <;> rw [hf] at h <;> simp at h
          omega
        · rcases hf : deferFlag tr hb p with _ | _ <;> rw [hf] at h <;> simp at h
          simpa using hf
      · obtain ⟨j, hj, rfl, hf⟩ := (ih (i + 1) k).mp h
        exact ⟨j + 1, by simpa using hj, by omega, by simpa using hf⟩
    · rintro ⟨j, hj, rfl, hf⟩
      cases j with
      | zero =>
        left
        simp at hf
        simp [hf]
      | succ j' =>
        right
        refine (ih (i + 1) (i + (j' + 1))).mpr ⟨j', by simpa using hj, by omega, ?_⟩
        simpa using hf

/-- C4: a palette slot is deferred by the context-free pass if and only if
its composite needs-context flag is set AND a neighbor resolver was
supplied; otherwise (flag clear, or no resolver) its context-free result
is accepted into the slot-level remap.  A two-layer block whose layers
report flags {false, true} has composite flag true. -/
theorem c4_deferral :
    (∀ (tr : TranslateCb) (ch : Chunk) (hb : Bool) (pal : List PObj) (st : P1State),
      firstPass tr ch hb pal 0 ⟨[], [], [], []⟩ = .ok st →
      ∀ (i : Nat), i < pal.length →
      ∀ (r : TRes), tr (pal.getD i .null) none = .ok r →
      ((i ∈ st.todo ↔ (r.extra = true ∧ hb = true)) ∧
       (i ∈ st.pmaps.map Prod.fst ↔ ¬(r.extra = true ∧ hb = true)))) ∧
    (∀ (rule : LayerRule) (entityFails : Bool) (b : Block) (e : BaseBlock)
       (cb : Option GetBlockCb),
      b.extras = [e] →
      (rule ⟨b.base, []⟩ cb).2.2 = false →
      (rule ⟨e, []⟩ cb).2.2 = true →
      ∃ res, translateObj rule entityFails (PObj.blk b) cb = .ok res ∧
             res.extra = true) := by
  constructor
  · intro tr ch hb pal st hok i hi r hr
    obtain ⟨h1, h2⟩ := firstPass_todo_pmaps tr ch hb pal 0 _ _ hok
    have hflag : deferFlag tr hb (pal.getD i .null) = (r.extra && hb) := by
      simp only [deferFlag, entryRes, hr]
    constructor
    · rw [h1]
      simp only [List.nil_append]
      rw [mem_todoSpec]
      constructor
      · rintro ⟨j, hj, hk, hf⟩
        have : j = i := by omega
        subst this
        rw [hflag] at hf
        simpa [Bool.and_eq_true] using hf
      · rintro ⟨he, hbb⟩
        exact ⟨i, hi, by omega, by rw [hflag]; simp [he, hbb]⟩
    · rw [h2]
      simp only [List.map_nil, List.nil_append]
      rw [mem_acceptSpec]
      constructor
      · rintro ⟨j, hj, hk, hf⟩
        have : j = i := by omega
        subst this
        rw [hflag] at hf
        rintro ⟨he, hbb⟩
        rw [he, hbb] at hf
        simp at hf
      · intro hne
        refine ⟨i, hi, by omega, ?_⟩
        rw [hflag]
        rcases hre : r.extra <;> rcases hhb : hb <;> simp_all
  · intro rule entityFails b e cb hex h0 h1
    refine ⟨_, translateObj_blk_eq rule entityFails b cb, ?_⟩
    rcases hr0 : rule ⟨b.base, []⟩ cb with ⟨o0, be0, f0⟩
    rcases hr1 : rule ⟨e, []⟩ cb with ⟨o1, be1, f1⟩
    have hf0 : f0 = false := by rw [hr0] at h0; exact h0
    have hf1 : f1 = true := by rw [hr1] at h1; exact h1
    subst hf0; subst hf1
    simp [layerOutputs, Block.layers, hex, orFlags, hr0, hr1]

/-- A one-entry stone palette cell for concrete runs. -/
def stoneBlock : Block := ⟨⟨"minecraft", "stone", []⟩, []⟩

/-- A rule whose needs-context flag is set exactly on the water layer. -/
def waterRule : LayerRule := fun l _ => (Sum.inl l, none, l.base.name == "water")

/-- A two-layer block: a log base layer with a water extra layer. -/
def logWaterBlock : Block := ⟨⟨"minecraft", "log", []⟩, [⟨"minecraft", "water", []⟩]⟩

/-- C4, witness: a context-free slot with no resolver is accepted (slot 0
lands in the slot remap, not the deferred list), and the two-layer
{false, true} block gets composite flag true. -/
theorem c4_deferral_witness :
    ((0 ∈ ([] : List Nat) ↔ ((false = true) ∧ (false = true))) ∧
     (0 ∈ ([(0, 0)] : List (Nat × Nat)).map Prod.fst ↔
        ¬((false = true) ∧ (false = true)))) ∧
    (∃ res, translateObj waterRule true (PObj.blk logWaterBlock) none = .ok res ∧
            res.extra = true) :=
  ⟨c4_deferral.1 (translateObj (fun b _ => (Sum.inl b, none, false)) true)
      shallowChunk false [PObj.blk stoneBlock]
      ⟨[], [], [PObj.blk stoneBlock], [(0, 0)]⟩ rfl 0 (by decide)
      ⟨some stoneBlock, none, [], false⟩ rfl,
   c4_deferral.2 waterRule true logWaterBlock ⟨"minecraft", "water", []⟩ none
      rfl (by decide) (by decide)⟩

/-! ### Lemmas and theorems: entity frame effects (claim C10) -/

/-- Forget the produced-entities component of a translate result. -/
def stripEnts : Except Unit TRes → Except Unit TRes :=
  Except.map (fun r => { r with entities := [] })

theorem stripEnts_cases {a b : Except Unit TRes} (hab : stripEnts a = stripEnts b) :
    (a = .error () ∧ b = .error ()) ∨
    (∃ r1 r2, a = .ok r1 ∧ b = .ok r2 ∧ r1.block = r2.block ∧
       r1.block_entity = r2.block_entity ∧ r1.extra = r2.extra) := by
  cases a with
  | error e1 =>
    cases b with
    | error e2 => cases e1; cases e2; exact Or.inl ⟨rfl, rfl⟩
    | ok r2 => simp [stripEnts, Except.map] at hab
  | ok r1 =>
    cases b with
    | error e2 => simp [stripEnts, Except.map] at hab
    | ok r2 =>
      refine Or.inr ⟨r1, r2, rfl, rfl, ?_⟩
      obtain ⟨b1, e1, l1, x1⟩ := r1
      obtain ⟨b2, e2, l2, x2⟩ := r2
      simp only [stripEnts, Except.map, Except.ok.injEq, TRes.mk.injEq,
        and_true, true_and] at hab
      exact ⟨hab.1, hab.2.1, hab.2.2⟩

theorem firstPass_congr (tr1 tr2 : TranslateCb) (ch : Chunk) (hb : Bool)
    (h : ∀ p cb, stripEnts (tr1 p cb) = stripEnts (tr2 p cb)) :
    ∀ (pal : List PObj) (i : Nat) (st : P1State),
    firstPass tr1 ch hb pal i st = firstPass tr2 ch hb pal i st := by
  intro pal
  induction pal with
  | nil => intro i st; rfl
  | cons p rest ih =>
    intro i st
    simp only [firstPass]
    rcases stripEnts_cases (h p none) with ⟨ha, hb2⟩ | ⟨r1, r2, ha, hb2, hbk, hbe, hex⟩
    · rw [ha, hb2]
    · rw [ha, hb2]
      dsimp only
      rw [hbk, hbe, hex]
      by_cases hc : (r2.extra && hb) = true
      · rw [if_pos hc, if_pos hc]; exact ih (i + 1) _
      · rw [if_neg hc, if_neg hc]; exact ih (i + 1) _

theorem coordLoop_congr (tr1 tr2 : TranslateCb) (ch : Chunk) (palette : List PObj)
    (gcb : GetChunkCb)
    (h : ∀ p cb, stripEnts (tr1 p cb) = stripEnts (tr2 p cb)) :
    ∀ (coords : List Coord) (st : P2State),
    coordLoop tr1 ch palette gcb coords st = coordLoop tr2 ch palette gcb coords st := by
  intro coords
  induction coords with
  | nil => intro st; rfl
  | cons c rest ih =>
    intro st
    simp only [coordLoop]
    rcases stripEnts_cases
        (h (palette.getD (ch.blocks c) .null)
           (some (get_block_at ch palette gcb c.1 c.2.1 c.2.2))) with
      ⟨ha, hb2⟩ | ⟨r1, r2, ha, hb2, hbk, hbe, hex⟩
    · rw [ha, hb2]
    · rw [ha, hb2]
      dsimp only
      rw [hbk, hbe]
      exact ih _

theorem todoLoop_congr (tr1 tr2 : TranslateCb) (ch : Chunk) (palette : List PObj)
    (gcb : GetChunkCb)
    (h : ∀ p cb, stripEnts (tr1 p cb) = stripEnts (tr2 p cb)) :
    ∀ (todoL : List Nat) (st : P2State),
    todoLoop tr1 ch palette gcb todoL st = todoLoop tr2 ch palette gcb todoL st := by
  intro todoL
  induction todoL with
  | nil => intro st; rfl
  | cons t rest ih =>
    intro st
    simp only [todoLoop]
    rw [coordLoop_congr tr1 tr2 ch palette gcb h]
    cases coordLoop tr2 ch palette gcb (ch.whereEq t) st with
    | error e => rfl
    | ok st' => exact ih st'

theorem translate_engine_entities (tr : TranslateCb) (ch : Chunk) (pal : List PObj)
    (gcb : Option GetChunkCb) (full : Bool) (res : Chunk × List PObj)
    (h : translate_engine tr ch pal gcb full = .ok res) :
    res.1.entities = ch.entities := by
  unfold translate_engine at h
  split at h
  · simp only [Except.ok.injEq] at h
    rw [← h]
  · split at h
    · exact absurd h (by simp)
    · split at h
      · exact absurd h (by simp)
      · simp only [Except.ok.injEq] at h
        rw [← h]

/-- C10: the chunk's entity list is read and written by no part of the
engine — the result chunk of `_translate`, `to_universal` and
`from_universal` carries the input's entity list unchanged — and the
produced-entities lists returned by the per-block wrapper are discarded:
two wrappers that agree up to their produced-entities lists drive the
engine to identical results. -/
theorem c10_entities_frame :
    (∀ (tr : TranslateCb) (ch : Chunk) (pal : List PObj) (gcb : Option GetChunkCb)
       (full : Bool) (res : Chunk × List PObj),
      translate_engine tr ch pal gcb full = .ok res →
      res.1.entities = ch.entities) ∧
    (∀ (rules : VersionRules) (ch : Chunk) (pal : List PObj) (gcb : Option GetChunkCb)
       (full : Bool) (res : Chunk × List PObj),
      to_universal rules ch pal gcb full = .ok res →
      res.1.entities = ch.entities) ∧
    (∀ (rules : VersionRules) (ch : Chunk) (pal : List PObj) (gcb : Option GetChunkCb)
       (full : Bool) (res : Chunk × List PObj),
      from_universal rules ch pal gcb full = .ok res →
      res.1.entities = ch.entities) ∧
    (∀ (tr1 tr2 : TranslateCb) (ch : Chunk) (pal : List PObj) (gcb : Option GetChunkCb)
       (full : Bool),
      (∀ p cb, stripEnts (tr1 p cb) = stripEnts (tr2 p cb)) →
      translate_engine tr1 ch pal gcb full = translate_engine tr2 ch pal gcb full) := by
  refine ⟨translate_engine_entities, ?_, ?_, ?_⟩
  · intro rules ch pal gcb full res h
    simp only [to_universal] at h
    have := translate_engine_entities _ _ _ _ _ _ h
    exact this
  · intro rules ch pal gcb full res h
    unfold from_universal at h
    split at h
    · exact absurd h (by simp)
    · rename_i p heq
      simp only [Except.ok.injEq] at h
      rw [← h]
      have := translate_engine_entities _ _ _ _ _ _ heq
      exact this
  · intro tr1 tr2 ch pal gcb full h
    by_cases hf : full = false
    · simp [translate_engine, hf]
    · simp only [translate_engine, if_neg hf]
      rw [firstPass_congr tr1 tr2 ch gcb.isSome h pal 0]
      cases firstPass tr2 ch gcb.isSome pal 0 ⟨[], [], [], []⟩ with
      | error e => rfl
      | ok st1 =>
        dsimp only
        rw [todoLoop_congr tr1 tr2 ch pal (gcb.getD (fun _ _ => (ch, pal))) h]

/-- C10, witness: two wrappers differing only in their produced-entities
lists drive the engine to the same result on a concrete chunk. -/
theorem c10_entities_frame_witness :
    translate_engine (fun _ _ => .ok ⟨none, none, [], false⟩)
        shallowChunk [PObj.blk stoneBlock] none true =
      translate_engine (fun _ _ => .ok ⟨none, none, [⟨"dropped"⟩], false⟩)
        shallowChunk [PObj.blk stoneBlock] none true :=
  c10_entities_frame.2.2.2 _ _ shallowChunk [PObj.blk stoneBlock] none true
    (fun _ _ => rfl)

/-! ### Lemmas and theorems: identity round trip (claim C1) -/

/-- The identity slot remap `[(i, i), (i+1, i+1), ...]` of length `n`. -/
def idPairsFrom : Nat → Nat → List (Nat × Nat)
  | _, 0 => []
  | i, Nat.succ n => (i, i) :: idPairsFrom (i + 1) n

theorem idPairsFrom_self : ∀ (n i : Nat), ∀ pr ∈ idPairsFrom i n, pr.1 = pr.2 := by
  intro n
  induction n with
  | zero => intro i pr hpr; simp [idPairsFrom] at hpr
  | succ n ih =>
    intro i pr hpr
    rcases List.mem_cons.mp hpr with rfl | hpr
    · rfl
    · exact ih (i + 1) pr hpr

theorem idTranslate_blk (ef : Bool) (b : Block) (hb : b.extras = [])
    (cb : Option GetBlockCb) :
    translateObj idLayerRule ef (PObj.blk b) cb = .ok ⟨some b, none, [], false⟩ := by
  obtain ⟨base, extras⟩ := b
  subst hb
  rfl

theorem firstPass_id (ef : Bool) (ch : Chunk) (hb : Bool) :
    ∀ (pal : List PObj) (i : Nat) (td : List Nat) (obes : List BlockEntity)
      (fin : List PObj) (pm : List (Nat × Nat)),
    (∀ p ∈ pal, ∃ b : Block, p = PObj.blk b ∧ b.extras = []) →
    (∀ p ∈ pal, p ∉ fin) → pal.Nodup → fin.length = i →
    firstPass (translateObj idLayerRule ef) ch hb pal i ⟨td, obes, fin, pm⟩ =
      .ok ⟨td, obes, fin ++ pal, pm ++ idPairsFrom i pal.length⟩ := by
  intro pal
  induction pal with
  | nil =>
    intro i td obes fin pm _ _ _ _
    simp [firstPass, idPairsFrom]
  | cons p rest ih =>
    intro i td obes fin pm hpal hnotin hnd hlen
    obtain ⟨b, rfl, hbex⟩ := hpal _ (List.mem_cons_self p rest)
    simp only [firstPass, idTranslate_blk ef b hbex]
    rw [if_neg (by simp)]
    have hno : firstIdx (PObj.blk b) fin = none :=
      firstIdx_eq_none.mpr (hnotin _ (List.mem_cons_self _ _))
    simp only [get_add_block, toPObj, hno, hlen]
    rw [ih (i + 1) td obes (fin ++ [PObj.blk b]) (pm ++ [(i, i)])
      (fun p hp => hpal p (List.mem_cons_of_mem _ hp))
      (fun p hp => by
        simp only [List.mem_append, List.mem_singleton]
        rintro (hin | rfl)
        · exact hnotin p (List.mem_cons_of_mem _ hp) hin
        · exact (List.nodup_cons.mp hnd).1 hp)
      (List.nodup_cons.mp hnd).2
      (by simp [hlen])]
    simp [idPairsFrom]

theorem applyPaletteMappings_id :
    ∀ (maps : List (Nat × Nat)) (g : Coord → Nat),
    (∀ pr ∈ maps, pr.1 = pr.2) → ∀ c, applyPaletteMappings g maps c = g c := by
  intro maps
  induction maps with
  | nil => intro g _ c; rfl
  | cons pr0 rest ih =>
    obtain ⟨o, n⟩ := pr0
    intro g h c
    have ho : o = n := h (o, n) (List.mem_cons_self _ _)
    subst ho
    show applyPaletteMappings (fun c => if g c = o then o else g c) rest c = g c
    rw [ih _ (fun pr hpr => h pr (List.mem_cons_of_mem _ hpr))]
    by_cases hc : g c = o
    · simp [hc]
    · simp [hc]

theorem translate_engine_id (ef : Bool) (ch : Chunk) (pal : List PObj)
    (gcb : Option GetChunkCb)
    (hpal : ∀ p ∈ pal, ∃ b : Block, p = PObj.blk b ∧ b.extras = [])
    (hnodup : pal.Nodup) :
    translate_engine (translateObj idLayerRule ef) ch pal gcb true =
      .ok ({ ch with
             blocks := applyPaletteMappings ch.blocks (idPairsFrom 0 pal.length),
             block_entities := [] }, pal) := by
  simp only [translate_engine, if_neg (by simp : ¬(true = false))]
  rw [firstPass_id ef ch gcb.isSome pal 0 [] [] [] [] hpal (by simp) hnodup rfl]
  rfl

/-- C1: with the identity rule tables, a deep `to_universal` followed by a
deep `from_universal` on a duplicate-free palette of non-layered blocks
reproduces the palette exactly and leaves every grid cell referencing a
palette entry with the same block identifier as the original (indeed the
identical grid index). -/
theorem c1_round_trip (ch : Chunk) (palette : List PObj) (gcb : Option GetChunkCb)
    (hpal : ∀ p ∈ palette, ∃ b : Block, p = PObj.blk b ∧ b.extras = [])
    (hnodup : palette.Nodup) :
    ∃ ch1 pal1 ch2 pal2,
      to_universal idVersionRules ch palette gcb true = .ok (ch1, pal1) ∧
      from_universal idVersionRules ch1 pal1 gcb true = .ok (ch2, pal2) ∧
      pal2 = palette ∧
      ∀ c : Coord, ch2.blocks c = ch.blocks c ∧
        (pal2.getD (ch2.blocks c) .null).blockId =
          (palette.getD (ch.blocks c) .null).blockId := by
  have hPid : ∀ pr ∈ idPairsFrom 0 palette.length, pr.1 = pr.2 :=
    idPairsFrom_self palette.length 0
  have h1 : to_universal idVersionRules ch palette gcb true =
      .ok ({ ch with
             blocks := applyPaletteMappings ch.blocks (idPairsFrom 0 palette.length),
             block_entities := [],
             biomes := biomesRecode id ch.biomes }, palette) := by
    simp only [to_universal, idVersionRules, _unpack_palette]
    rw [translate_engine_id true _ palette gcb hpal hnodup]
  have h2 : from_universal idVersionRules
      { ch with
        blocks := applyPaletteMappings ch.blocks (idPairsFrom 0 palette.length),
        block_entities := [],
        biomes := biomesRecode id ch.biomes } palette gcb true =
      .ok ({ ch with
             blocks := applyPaletteMappings
               (applyPaletteMappings ch.blocks (idPairsFrom 0 palette.length))
               (idPairsFrom 0 palette.length),
             block_entities := [],
             biomes := biomesRecode id (biomesRecode id ch.biomes) }, palette) := by
    simp only [from_universal, idVersionRules, _pack_palette]
    rw [translate_engine_id false _ palette gcb hpal hnodup]
    rfl
  refine ⟨_, palette, _, palette, h1, h2, rfl, fun c => ?_⟩
  have hbl : applyPaletteMappings
      (applyPaletteMappings ch.blocks (idPairsFrom 0 palette.length))
      (idPairsFrom 0 palette.length) c = ch.blocks c := by
    rw [applyPaletteMappings_id _ _ hPid c, applyPaletteMappings_id _ _ hPid c]
  exact ⟨hbl, by rw [show ({ ch with
      blocks := applyPaletteMappings
        (applyPaletteMappings ch.blocks (idPairsFrom 0 palette.length))
        (idPairsFrom 0 palette.length),
      block_entities := [],
      biomes := biomesRecode id (biomesRecode id ch.biomes) } : Chunk).blocks c
        = ch.blocks c from hbl]⟩

/-- A non-layered dirt block used by concrete witnesses. -/
def dirtBlock : Block := ⟨⟨"minecraft", "dirt", []⟩, []⟩

/-- C1, witness: the round trip on a concrete one-cell chunk with a
two-entry palette of non-layered blocks. -/
theorem c1_round_trip_witness :
    ([PObj.blk stoneBlock, PObj.blk dirtBlock].Nodup) ∧
    (∃ ch1 pal1 ch2 pal2,
      to_universal idVersionRules shallowChunk
          [PObj.blk stoneBlock, PObj.blk dirtBlock] none true = .ok (ch1, pal1) ∧
      from_universal idVersionRules ch1 pal1 none true = .ok (ch2, pal2) ∧
      pal2 = [PObj.blk stoneBlock, PObj.blk dirtBlock] ∧
      ∀ c : Coord, ch2.blocks c = shallowChunk.blocks c ∧
        (pal2.getD (ch2.blocks c) .null).blockId =
          ([PObj.blk stoneBlock, PObj.blk dirtBlock].getD
            (shallowChunk.blocks c) .null).blockId) :=
  ⟨by decide,
   c1_round_trip shallowChunk [PObj.blk stoneBlock, PObj.blk dirtBlock] none
     (by intro p hp
         rcases List.mem_cons.mp hp with rfl | hp
         · exact ⟨stoneBlock, rfl, rfl⟩
         · rcases List.mem_cons.mp hp with rfl | hp
           · exact ⟨dirtBlock, rfl, rfl⟩
           · simp at hp)
     (by decide)⟩

/-! ### Lemmas: deduplicating palette growth -/

theorem get_add_block_append (l : List PObj) (b : PObj) :
    ∃ ext, (get_add_block l b).1 = l ++ ext := by
  unfold get_add_block
  cases h : firstIdx b l with
  | none => exact ⟨[b], rfl⟩
  | some i => exact ⟨[], by simp⟩

theorem get_add_block_nodup {l : List PObj} (hl : l.Nodup) (b : PObj) :
    (get_add_block l b).1.Nodup := by
  unfold get_add_block
  cases h : firstIdx b l with
  | none =>
    have hb : b ∉ l := firstIdx_eq_none.mp h
    simp [List.nodup_append, hl, hb]
  | some i => simpa using hl

theorem get_add_block_firstIdx (l : List PObj) (b : PObj) :
    firstIdx b (get_add_block l b).1 = some (get_add_block l b).2 := by
  unfold get_add_block
  cases h : firstIdx b l with
  | none => simpa using firstIdx_append_self (firstIdx_eq_none.mp h)
  | some i => simpa using h

theorem get_add_block_le (l : List PObj) (b : PObj) :
    (get_add_block l b).2 ≤ l.length := by
  unfold get_add_block
  cases h : firstIdx b l with
  | none => simp
  | some i => simpa using Nat.le_of_lt (firstIdx_lt h)

theorem get_add_block_len (l : List PObj) (b : PObj) :
    (get_add_block l b).1.length ≤ l.length + 1 := by
  unfold get_add_block
  cases h : firstIdx b l with
  | none => simp
  | some i => simp

/-! ### Lemmas: first-pass state invariants -/

/-- Strictly increasing slot keys of a remap list. -/
def keysOrdered (l : List (Nat × Nat)) : Prop :=
  List.Pairwise (fun a b => a.1 < b.1) l

theorem firstPass_ext (tr : TranslateCb) (ch : Chunk) (hb : Bool) :
    ∀ (pal : List PObj) (k : Nat) (st0 st1 : P1State),
    firstPass tr ch hb pal k st0 = .ok st1 →
    (∃ ext, st1.finished = st0.finished ++ ext) ∧
    (∃ pmext, st1.pmaps = st0.pmaps ++ pmext) := by
  intro pal
  induction pal with
  | nil =>
    intro k st0 st1 h
    simp [firstPass] at h
    exact ⟨⟨[], by simp [← h]⟩, ⟨[], by simp [← h]⟩⟩
  | cons p rest ih =>
    intro k st0 st1 h
    simp only [firstPass] at h
    split at h
    · exact absurd h (by simp)
    · rename_i r htr
      split at h
      · obtain ⟨⟨e1, he1⟩, ⟨e2, he2⟩⟩ := ih (k + 1) _ _ h
        exact ⟨⟨e1, he1⟩, ⟨e2, he2⟩⟩
      · obtain ⟨⟨e1, he1⟩, ⟨e2, he2⟩⟩ := ih (k + 1) _ _ h
        obtain ⟨e0, he0⟩ := get_add_block_append st0.finished (toPObj r.block)
        refine ⟨⟨e0 ++ e1, ?_⟩, ⟨(k, (get_add_block st0.finished (toPObj r.block)).2) :: e2, ?_⟩⟩
        · rw [he1]
          dsimp only
          rw [he0, List.append_assoc]
        · rw [he2]
          dsimp only
          rw [List.append_assoc]
          rfl

theorem firstPass_inv (tr : TranslateCb) (ch : Chunk) (hb : Bool) :
    ∀ (pal : List PObj) (k : Nat) (st0 st1 : P1State),
    firstPass tr ch hb pal k st0 = .ok st1 →
    st0.finished.Nodup →
    (∀ pr ∈ st0.pmaps, pr.1 < k) →
    (∀ pr ∈ st0.pmaps, pr.2 ≤ pr.1) →
    keysOrdered st0.pmaps →
    st0.finished.length ≤ k →
    st1.finished.Nodup ∧ (∀ pr ∈ st1.pmaps, pr.2 ≤ pr.1) ∧ keysOrdered st1.pmaps := by
  intro pal
  induction pal with
  | nil =>
    intro k st0 st1 h hnd _ hv ho _
    simp [firstPass] at h
    rw [← h]
    exact ⟨hnd, hv, ho⟩
  | cons p rest ih =>
    intro k st0 st1 h hnd hkb hv ho hfl
    simp only [firstPass] at h
    split at h
    · exact absurd h (by simp)
    · rename_i r htr
      split at h
      · exact ih (k + 1) _ _ h hnd
          (fun pr hpr => Nat.lt_succ_of_lt (hkb pr hpr)) hv ho
          (Nat.le_succ_of_le hfl)
      · refine ih (k + 1) _ _ h (get_add_block_nodup hnd _) ?_ ?_ ?_ ?_
        · intro pr hpr
          rcases List.mem_append.mp hpr with hin | hin
          · exact Nat.lt_succ_of_lt (hkb pr hin)
          · simp at hin
            subst hin
            exact Nat.lt_succ_self k
        · intro pr hpr
          rcases List.mem_append.mp hpr with hin | hin
          · exact hv pr hin
          · simp at hin
            subst hin
            exact Nat.le_trans (get_add_block_le _ _) hfl
        · refine (List.pairwise_append).mpr ⟨ho, by simp [keysOrdered], ?_⟩
          intro a ha bb hbb
          simp at hbb
          subst hbb
          exact hkb a ha
        · exact Nat.le_trans (get_add_block_len _ _) (Nat.succ_le_succ hfl)

theorem firstPass_accept_maps (tr : TranslateCb) (ch : Chunk) (hb : Bool) :
    ∀ (pal : List PObj) (k : Nat) (st0 st1 : P1State),
    firstPass tr ch hb pal k st0 = .ok st1 →
    ∀ (j : Nat) (r : TRes), j < pal.length →
    tr (pal.getD j .null) none = .ok r → (r.extra && hb) = false →
    ∃ m, (k + j, m) ∈ st1.pmaps ∧
         firstIdx (toPObj r.block) st1.finished = some m := by
  intro pal
  induction pal with
  | nil => intro k st0 st1 _ j r hj; simp at hj
  | cons p rest ih =>
    intro k st0 st1 h j r hj hr hflag
    simp only [firstPass] at h
    split at h
    · exact absurd h (by simp)
    · rename_i r0 htr
      cases j with
      | zero =>
        have hr0 : r0 = r := by
          have : tr p none = .ok r := by simpa using hr
          rw [this] at htr
          exact (Except.ok.injEq _ _ ▸ htr : _) ▸ rfl
        subst hr0
        split at h
        · rename_i hcond
          rw [hflag] at hcond
          exact absurd hcond (by simp)
        · obtain ⟨⟨e1, he1⟩, ⟨e2, he2⟩⟩ := firstPass_ext tr ch hb rest (k + 1) _ _ h
          refine ⟨(get_add_block st0.finished (toPObj r0.block)).2, ?_, ?_⟩
          · rw [he2]
            dsimp only
            simp
          · rw [he1]
            dsimp only
            exact firstIdx_append (get_add_block_firstIdx _ _) e1
      | succ j' =>
        have hj' : j' < rest.length := by simpa using hj
        have hr' : tr (rest.getD j' .null) none = .ok r := by simpa using hr
        split at h
        · obtain ⟨m, hm, hf⟩ := ih (k + 1) _ _ h j' r hj' hr' hflag
          exact ⟨m, by simpa [Nat.add_comm, Nat.add_assoc, Nat.add_left_comm] using hm, hf⟩
        · obtain ⟨m, hm, hf⟩ := ih (k + 1) _ _ h j' r hj' hr' hflag
          exact ⟨m, by simpa [Nat.add_comm, Nat.add_assoc, Nat.add_left_comm] using hm, hf⟩

/-! ### Lemmas: second-pass state invariants -/

theorem mem_whereEq {ch : Chunk} {i : Nat} {c : Coord}
    (h : c ∈ ch.whereEq i) : ch.blocks c = i := by
  have := List.mem_filter.mp h
  simpa using this.2

theorem coordLoop_inv (tr : TranslateCb) (ch : Chunk) (palette : List PObj)
    (gcb : GetChunkCb) :
    ∀ (coords : List Coord) (st0 st1 : P2State),
    coordLoop tr ch palette gcb coords st0 = .ok st1 →
    st0.finished.Nodup →
    (∃ ext, st1.finished = st0.finished ++ ext) ∧ st1.finished.Nodup ∧
    (∀ pr ∈ st1.bmaps, pr ∈ st0.bmaps ∨ pr.1 ∈ coords) := by
  intro coords
  induction coords with
  | nil =>
    intro st0 st1 h hnd
    simp [coordLoop] at h
    rw [← h]
    exact ⟨⟨[], by simp⟩, hnd, fun pr hpr => Or.inl hpr⟩
  | cons c rest ih =>
    intro st0 st1 h hnd
    simp only [coordLoop] at h
    split at h
    · exact absurd h (by simp)
    · rename_i r htr
      obtain ⟨⟨e1, he1⟩, hnd1, hbm⟩ := ih _ _ h (get_add_block_nodup hnd _)
      obtain ⟨e0, he0⟩ := get_add_block_append st0.finished (toPObj r.block)
      refine ⟨⟨e0 ++ e1, ?_⟩, hnd1, ?_⟩
      · rw [he1]
        dsimp only
        rw [he0, List.append_assoc]
      · intro pr hpr
        rcases hbm pr hpr with hin | hin
        · dsimp only at hin
          rcases List.mem_append.mp hin with hin' | hin'
          · exact Or.inl hin'
          · simp at hin'
            subst hin'
            exact Or.inr (List.mem_cons_self c rest)
        · exact Or.inr (List.mem_cons_of_mem c hin)

theorem todoLoop_inv (tr : TranslateCb) (ch : Chunk) (palette : List PObj)
    (gcb : GetChunkCb) :
    ∀ (todoL : List Nat) (st0 st1 : P2State),
    todoLoop tr ch palette gcb todoL st0 = .ok st1 →
    st0.finished.Nodup →
    (∃ ext, st1.finished = st0.finished ++ ext) ∧ st1.finished.Nodup ∧
    (∀ pr ∈ st1.bmaps, pr ∈ st0.bmaps ∨ ∃ t ∈ todoL, pr.1 ∈ ch.whereEq t) := by
  intro todoL
  induction todoL with
  | nil =>
    intro st0 st1 h hnd
    simp [todoLoop] at h
    rw [← h]
    exact ⟨⟨[], by simp⟩, hnd, fun pr hpr => Or.inl hpr⟩
  | cons t rest ih =>
    intro st0 st1 h hnd
    simp only [todoLoop] at h
    split at h
    · exact absurd h (by simp)
    · rename_i st' hcl
      obtain ⟨⟨e0, he0⟩, hnd0, hbm0⟩ := coordLoop_inv tr ch palette gcb _ _ _ hcl hnd
      obtain ⟨⟨e1, he1⟩, hnd1, hbm1⟩ := ih _ _ h hnd0
      refine ⟨⟨e0 ++ e1, by rw [he1, he0, List.append_assoc]⟩, hnd1, ?_⟩
      intro pr hpr
      rcases hbm1 pr hpr with hin | ⟨t', ht', hw⟩
      · rcases hbm0 pr hin with hin' | hw
        · exact Or.inl hin'
        · exact Or.inr ⟨t, List.mem_cons_self t rest, hw⟩
      · exact Or.inr ⟨t', List.mem_cons_of_mem t ht', hw⟩

/-! ### Lemmas: the commit step -/

theorem applyPaletteMappings_not_key :
    ∀ (maps : List (Nat × Nat)) (g : Coord → Nat) (c : Coord) (w : Nat),
    (∀ pr ∈ maps, pr.1 ≠ w) → g c = w → applyPaletteMappings g maps c = w := by
  intro maps
  induction maps with
  | nil => intro g c w _ hg; exact hg
  | cons pr0 rest ih =>
    obtain ⟨o, n⟩ := pr0
    intro g c w hk hg
    show applyPaletteMappings (fun c => if g c = o then n else g c) rest c = w
    refine ih _ c w (fun pr hpr => hk pr (List.mem_cons_of_mem _ hpr)) ?_
    have ho : o ≠ w := hk (o, n) (List.mem_cons_self _ _)
    rw [hg, if_neg (fun hc => ho hc.symm)]

theorem applyPaletteMappings_key :
    ∀ (maps : List (Nat × Nat)) (g : Coord → Nat) (c : Coord) (v m : Nat),
    keysOrdered maps → (∀ pr ∈ maps, pr.2 ≤ pr.1) → (v, m) ∈ maps → g c = v →
    applyPaletteMappings g maps c = m := by
  intro maps
  induction maps with
  | nil => intro g c v m _ _ hin; simp at hin
  | cons pr0 rest ih =>
    obtain ⟨o, n⟩ := pr0
    intro g c v m ho hv hin hg
    rcases List.mem_cons.mp hin with heq | hin'
    · obtain ⟨rfl, rfl⟩ := Prod.mk.injEq .. ▸ heq
      show applyPaletteMappings (fun c => if g c = v then m else g c) rest c = m
      refine applyPaletteMappings_not_key rest _ c m ?_ (by rw [hg, if_pos rfl])
      intro pr hpr
      have hlt : v < pr.1 := (List.pairwise_cons.mp ho).1 pr hpr
      have hnv : m ≤ v := hv (v, m) (List.mem_cons_self _ _)
      omega
    · have hvo : o < v := (List.pairwise_cons.mp ho).1 (v, m) hin'
      show applyPaletteMappings (fun c => if g c = o then n else g c) rest c = m
      refine ih _ c v m (List.pairwise_cons.mp ho).2
        (fun pr hpr => hv pr (List.mem_cons_of_mem _ hpr)) hin' ?_
      rw [hg, if_neg (by omega)]

theorem applyBlockMappings_not_key :
    ∀ (bmaps : List (Coord × Nat)) (g : Coord → Nat) (c : Coord),
    (∀ pr ∈ bmaps, pr.1 ≠ c) → applyBlockMappings g bmaps c = g c := by
  intro bmaps
  induction bmaps with
  | nil => intro g c _; rfl
  | cons pr0 rest ih =>
    obtain ⟨c0, n⟩ := pr0
    intro g c hk
    show applyBlockMappings (fun c => if c = c0 then n else g c) rest c = g c
    rw [ih _ c (fun pr hpr => hk pr (List.mem_cons_of_mem _ hpr))]
    rw [if_neg (fun hc : c = c0 => hk (c0, n) (List.mem_cons_self _ _) hc.symm)]

/-! ### Theorems: output-palette deduplication (claim C3) -/

/-- C3: in a successful deep translate, if two distinct context-free
palette slots translate to the same output block, the output palette
holds exactly one copy of that block, and after the commit every grid
coordinate that referenced either slot references that one unified slot. -/
theorem c3_palette_dedup
    (tr : TranslateCb) (ch : Chunk) (pal : List PObj) (gcb : Option GetChunkCb)
    (ch' : Chunk) (pal' : List PObj)
    (hok : translate_engine tr ch pal gcb true = .ok (ch', pal'))
    (i j : Nat) (hij : i < j) (hj : j < pal.length)
    (ri rj : TRes) (b : Block)
    (hri : tr (pal.getD i .null) none = .ok ri)
    (hrj : tr (pal.getD j .null) none = .ok rj)
    (hrie : ri.extra = false) (hrje : rj.extra = false)
    (hrib : ri.block = some b) (hrjb : rj.block = some b) :
    pal'.count (PObj.blk b) = 1 ∧
    ∃ u, pal'.getD u .null = PObj.blk b ∧
      ∀ c : Coord, (ch.blocks c = i ∨ ch.blocks c = j) → ch'.blocks c = u := by
  simp only [translate_engine, if_neg (by simp : ¬(true = false))] at hok
  split at hok
  · exact absurd hok (by simp)
  rename_i st1 hfp
  split at hok
  · exact absurd hok (by simp)
  rename_i st2 htl
  simp only [Except.ok.injEq, Prod.mk.injEq] at hok
  obtain ⟨hch, hpal⟩ := hok
  subst hpal
  have hbfi : toPObj ri.block = PObj.blk b := by rw [hrib]; rfl
  have hbfj : toPObj rj.block = PObj.blk b := by rw [hrjb]; rfl
  have hflagi : (ri.extra && gcb.isSome) = false := by rw [hrie]; simp
  have hflagj : (rj.extra && gcb.isSome) = false := by rw [hrje]; simp
  obtain ⟨mi, hmi_mem, hmi_fi⟩ :=
    firstPass_accept_maps tr ch gcb.isSome pal 0 _ _ hfp i ri
      (Nat.lt_trans hij hj) hri hflagi
  obtain ⟨mj, hmj_mem, hmj_fi⟩ :=
    firstPass_accept_maps tr ch gcb.isSome pal 0 _ _ hfp j rj hj hrj hflagj
  rw [hbfi] at hmi_fi
  rw [hbfj] at hmj_fi
  have hmm : mj = mi := by
    rw [hmi_fi] at hmj_fi
    exact Option.some.inj hmj_fi.symm
  obtain ⟨hnd1, hvals, hord⟩ :=
    firstPass_inv tr ch gcb.isSome pal 0 _ _ hfp (by simp) (by simp) (by simp)
      (by simp [keysOrdered]) (by simp)
  obtain ⟨⟨ext2, hext2⟩, hnd2, hbm2⟩ :=
    todoLoop_inv tr ch pal (gcb.getD (fun _ _ => (ch, pal))) st1.todo
      ⟨st1.obes, st1.finished, []⟩ st2 htl hnd1
  dsimp only at hext2 hbm2
  have hfi_final : firstIdx (PObj.blk b) st2.finished = some mi := by
    rw [hext2]
    exact firstIdx_append hmi_fi ext2
  have hmem : PObj.blk b ∈ st2.finished := firstIdx_mem hfi_final
  have htodo := (firstPass_todo_pmaps tr ch gcb.isSome pal 0 _ _ hfp).1
  have hnotin : ∀ k (rk : TRes), k < pal.length →
      tr (pal.getD k .null) none = .ok rk → rk.extra = false → k ∉ st1.todo := by
    intro k rk hk hrk hrke hin
    rw [htodo] at hin
    simp only [List.nil_append] at hin
    obtain ⟨j0, hj0, hkj0, hflag⟩ := (mem_todoSpec tr gcb.isSome pal 0 k).mp hin
    have : j0 = k := by omega
    subst this
    rw [deferFlag, entryRes, hrk, hrke] at hflag
    simp at hflag
  have hnotin_i : i ∉ st1.todo := hnotin i ri (Nat.lt_trans hij hj) hri hrie
  have hnotin_j : j ∉ st1.todo := hnotin j rj hj hrj hrje
  refine ⟨List.count_eq_one_of_mem hnd2 hmem, mi, firstIdx_getD hfi_final _, ?_⟩
  intro c hc
  rw [← hch]
  show applyBlockMappings (applyPaletteMappings ch.blocks st1.pmaps) st2.bmaps c = mi
  have hnk : ∀ pr ∈ st2.bmaps, pr.1 ≠ c := by
    intro pr hpr hprc
    rcases hbm2 pr hpr with hin | ⟨t, ht, hw⟩
    · simp at hin
    · have hbt : ch.blocks pr.1 = t := mem_whereEq hw
      rw [hprc] at hbt
      rcases hc with hci | hcj
      · rw [hci] at hbt
        exact hnotin_i (hbt ▸ ht)
      · rw [hcj] at hbt
        exact hnotin_j (hbt ▸ ht)
  rw [applyBlockMappings_not_key st2.bmaps _ c hnk]
  rcases hc with hci | hcj
  · exact applyPaletteMappings_key st1.pmaps ch.blocks c i mi hord hvals
      (by simpa using hmi_mem) hci
  · rw [← hmm]
    exact applyPaletteMappings_key st1.pmaps ch.blocks c j mj hord hvals
      (by simpa using hmj_mem) hcj

/-- The wrapper of a rule that maps every layer to the stone block. -/
def constStoneTr : TranslateCb :=
  translateObj (fun _ _ => (Sum.inl stoneBlock, none, false)) true

/-- A two-cell chunk whose cells reference slots 0 and 1. -/
def twoSlotChunk : Chunk where
  cx := 0
  cz := 0
  gridCoords := [(0, 0, 0), (0, 0, 1)]
  blocks := fun c => if c = (0, 0, 1) then 1 else 0
  block_entities := []
  entities := []
  biomes := [0]

/-- C3, witness: slots 0 (stone) and 1 (dirt) both translate to stone
under a constant rule; the engine run unifies them into the single output
slot 0. -/
theorem c3_palette_dedup_witness :
    [PObj.blk stoneBlock].count (PObj.blk stoneBlock) = 1 ∧
    ∃ u, [PObj.blk stoneBlock].getD u PObj.null = PObj.blk stoneBlock ∧
      ∀ c : Coord, (twoSlotChunk.blocks c = 0 ∨ twoSlotChunk.blocks c = 1) →
        ({ twoSlotChunk with
           blocks := applyBlockMappings
             (applyPaletteMappings twoSlotChunk.blocks [(0, 0), (1, 0)]) [],
           block_entities := [] } : Chunk).blocks c = u :=
  c3_palette_dedup constStoneTr twoSlotChunk
    [PObj.blk stoneBlock, PObj.blk dirtBlock] none
    { twoSlotChunk with
      blocks := applyBlockMappings
        (applyPaletteMappings twoSlotChunk.blocks [(0, 0), (1, 0)]) [],
      block_entities := [] }
    [PObj.blk stoneBlock] rfl 0 1 (by decide) (by decide)
    ⟨some stoneBlock, none, [], false⟩ ⟨some stoneBlock, none, [], false⟩
    stoneBlock rfl rfl rfl rfl rfl rfl

end AmuletCore
